import Mathlib

/-!
Verification development for the TradeSage financial-hypothesis pipeline.

Definitions in the first part of the file embed the Python source
(`app/services/market_data_service.py`, `app/adk/tools.py`, `app/adk/main.py`)
and, where the orchestrator module is absent from the source tree, model its
behaviour from the specification.  Text is embedded as `List Char`, prices and
confidence values as `ℚ`, fallible calls as `Except`.
-/

attribute [local semireducible] Rat.add Rat.inv Rat.mul Rat.sub

set_option maxRecDepth 40000

namespace TradeSage

/-! ## Numeric helpers: Python `round(x, 2)` on rationals -/

/-- Floor of a rational, computed with integer floor division. -/
def ratFloor (q : ℚ) : ℤ := Int.fdiv q.num q.den

/-- Round a rational to the nearest integer, ties to even (Python `round`). -/
def roundHalfEven (q : ℚ) : ℤ :=
  let n := ratFloor q
  let f := q - (n : ℚ)
  if f < 1/2 then n
  else if 1/2 < f then n + 1
  else if n % 2 = 0 then n else n + 1

/-- Python `round(x, 2)`: round to two decimal places, ties to even. -/
def pyRound2 (q : ℚ) : ℚ := (roundHalfEven (q * 100) : ℚ) / 100

/-- Python `str.upper()` restricted to the ASCII symbols the service handles. -/
def pyUpper (s : String) : String := String.mk (s.data.map Char.toUpper)

/-! ## `MarketDataService._apply_simulation_price` (market_data_service.py 55-78) -/

/-- Embeds `_apply_simulation_price`: non-positive prices pass through; an
NVDA price above 175 is only re-rounded; every other positive price is
multiplied by the 1.43 simulation factor and rounded to 2 decimals. -/
def applySimulationPrice (symbol : String) (price : ℚ) : ℚ :=
  if price ≤ 0 then price
  else if pyUpper symbol = "NVDA" ∧ 175 < price then pyRound2 price
  else pyRound2 (price * (143/100))

/-- Embeds the `None` short-circuit of `_apply_simulation_price`
(`if not price`): a missing price is returned unmodified. -/
def applySimulationPriceOpt (symbol : String) (price : Option ℚ) : Option ℚ :=
  match price with
  | none => none
  | some p => some (applySimulationPrice symbol p)

/-- Embeds the `currentPrice` computation of `_fetch_alpha_vantage`
(market_data_service.py 196-218): the simulated price rounded to 2 decimals.
`_fetch_yfinance` (289-312) computes the same value from its raw close. -/
def avCurrentPrice (symbol : String) (rawPrice : ℚ) : ℚ :=
  pyRound2 (applySimulationPrice symbol rawPrice)

/-! ## `_extract_target_price` (main.py 60-69): regex `\$(\d+(?:\.\d+)?)` -/

/-- Longest leading run of ASCII digits, paired with the remaining input. -/
def takeDigits : List Char → List Char × List Char
  | [] => ([], [])
  | c :: cs =>
    if c.isDigit then
      let p := takeDigits cs
      (c :: p.1, p.2)
    else ([], c :: cs)

/-- Value of a digit string read in base 10. -/
def digitsToNat (ds : List Char) : ℕ :=
  ds.foldl (fun n c => 10 * n + (c.toNat - 48)) 0

/-- Value of a digit string read as a fractional part. -/
def fracVal (ds : List Char) : ℚ := (digitsToNat ds : ℚ) / ((10 : ℚ) ^ ds.length)

/-- Value of `ip.fp`, an integer part with a fractional part. -/
def decimalVal (ip fp : List Char) : ℚ := (digitsToNat ip : ℚ) + fracVal fp

/-- One attempt of the regex `\$(\d+(?:\.\d+)?)` at the head of the input:
a dollar sign followed by digits, optionally a dot and more digits. -/
def matchDollarAt : List Char → Option ℚ
  | [] => none
  | [_] => none
  | c :: c2 :: cs =>
    if c = '$' ∧ c2.isDigit = true then
      match takeDigits (c2 :: cs) with
      | (ip, []) => some (digitsToNat ip : ℚ)
      | (ip, d :: r2) =>
        if d = '.' then
          if (takeDigits r2).1 = [] then some (digitsToNat ip : ℚ)
          else some (decimalVal ip (takeDigits r2).1)
        else some (digitsToNat ip : ℚ)
    else none

/-- Embeds the scan of `re.search` in `_extract_target_price`: the first
position where the dollar-number pattern matches wins; no match yields 0. -/
def extractTargetPriceAux : List Char → ℚ
  | [] => 0
  | c :: cs =>
    match matchDollarAt (c :: cs) with
    | some v => v
    | none => extractTargetPriceAux cs

/-- Embeds `_extract_target_price` (main.py 60-69). -/
def extractTargetPrice (thesis : String) : ℚ := extractTargetPriceAux thesis.data

/-- Whether the dollar-number pattern matches anywhere in the input. -/
def hasDollarNum : List Char → Bool
  | [] => false
  | c :: cs => (matchDollarAt (c :: cs)).isSome || hasDollarNum cs

/-- Every character of the list is an ASCII digit. -/
def allDigits (l : List Char) : Bool := l.all Char.isDigit

/-- The list does not start with a digit, so it cannot extend a digit run. -/
def headNotDigit (l : List Char) : Bool :=
  match l with
  | [] => true
  | c :: _ => !c.isDigit

/-- The list does not start with a dot followed by a digit, so it cannot
extend an integer token into a decimal token. -/
def notFracStart (l : List Char) : Bool :=
  match l with
  | c :: c2 :: _ => !(c = '.' && c2.isDigit)
  | _ => true

/-! ## `/process` input gate (main.py 110-128) -/

/-- A `/process` request body; absent keys are `none`, as for `dict.get`. -/
structure ProcessRequest where
  hypothesis : Option String
  idea : Option String
  context : Option String
  mode : Option String

/-- Python `a or b` on string-or-None values: `a` unless it is falsy. -/
def orStr (a b : Option String) : Option String :=
  match a with
  | some s => if s = "" then b else some s
  | none => b

/-- Embeds `hypothesis = request_data.get("hypothesis") or
request_data.get("idea") or request_data.get("context") or ""`. -/
def resolvedInput (r : ProcessRequest) : String :=
  (orStr r.hypothesis (orStr r.idea r.context)).getD ""

/-- Embeds the gate of `process_hypothesis_adk` (main.py 114-128): an empty
resolved input is rejected with HTTP 400 before the orchestrator is invoked;
otherwise the orchestrator receives the input and the mode, the latter
defaulting to "analyze". -/
def processEndpoint {α : Type} (orch : String → String → α) (r : ProcessRequest) :
    Except ℕ α :=
  let hypothesis := resolvedInput r
  if hypothesis = "" then Except.error 400
  else Except.ok (orch hypothesis (r.mode.getD "analyze"))

/-! ## Confidence resolution -/

/-- Modelled from the spec: the orchestrator module holding the
ConfidenceResolver is not in the source tree.  Per spec section 4.4, a parsed
confidence in [0,1] is used as is, an absent one defaults to 0.5, and an
out-of-range one is clamped into [0,1]. -/
def resolveConfidence (parsed : Option ℚ) : ℚ :=
  match parsed with
  | none => 1/2
  | some c => if c < 0 then 0 else if 1 < c then 1 else c

/-- Embeds `result.get("confidence_score", 0.5)` (main.py 149 and 252): the
caller-side default applied when the orchestrator result lacks the key. -/
def mainConfidenceScore (fromResult : Option ℚ) : ℚ := fromResult.getD (1/2)

/-! ## Response parsing (modelled from the spec)

The orchestrator module holding `TradeSageOrchestrator._parse_synthesis_response`
is not in the source tree; only its callers (`app/adk/main.py`) and its tests
(`test_synthesis_parsing.py`) are.  The definitions below model it from spec
section 4.2. -/

/-- Opening brace character. -/
def lbrace : Char := Char.ofNat 123

/-- Closing brace character. -/
def rbrace : Char := Char.ofNat 125

/-- Double-quote character. -/
def dquote : Char := Char.ofNat 34

/-- Whitespace characters recognised while scanning agent text. -/
def wsChar (c : Char) : Bool := c = ' ' || c = '\n' || c = '\t' || c = '\r'

/-- Drop leading whitespace. -/
def skipWs : List Char → List Char
  | [] => []
  | c :: cs => if wsChar c then skipWs cs else c :: cs

/-- Modelled from the spec: the balanced-brace scan of section 4.2.  One pass
over the text collecting every balanced top-level brace substring; `d` is the
current depth, `acc` the characters of the open object (reversed), `res` the
collected candidates (reversed).  Brackets are ordinary characters, so objects
inside a JSON array are collected exactly as bare concatenated objects, and
each candidate is later parsed independently (malformed ones are skipped). -/
def scanObjsAux : List Char → ℕ → List Char → List (List Char) → List (List Char)
  | [], _, _, res => res.reverse
  | c :: t, d, acc, res =>
    if c = lbrace then
      if d = 0 then scanObjsAux t 1 [c] res
      else scanObjsAux t (d + 1) (c :: acc) res
    else if c = rbrace then
      if d = 0 then scanObjsAux t 0 acc res
      else if d = 1 then scanObjsAux t 0 [] ((c :: acc).reverse :: res)
      else scanObjsAux t (d - 1) (c :: acc) res
    else
      if d = 0 then scanObjsAux t 0 acc res
      else scanObjsAux t d (c :: acc) res

/-- Candidate balanced-brace substrings of the text. -/
def scanObjs (s : List Char) : List (List Char) := scanObjsAux s 0 [] []

/-- Characters of a string literal up to the closing quote. -/
def takeUntilQuote : List Char → Option (List Char × List Char)
  | [] => none
  | c :: cs =>
    if c = dquote then some ([], cs)
    else
      match takeUntilQuote cs with
      | some p => some (c :: p.1, p.2)
      | none => none

/-- Parse a JSON string literal at the head of the input. -/
def parseStringLit (s : List Char) : Option (List Char × List Char) :=
  match s with
  | [] => none
  | c :: cs => if c = dquote then takeUntilQuote cs else none

/-- Parse one `"key": "value"` pair. -/
def parsePair (s : List Char) : Option ((List Char × List Char) × List Char) :=
  match parseStringLit (skipWs s) with
  | none => none
  | some kv =>
    match skipWs kv.2 with
    | [] => none
    | c :: r2 =>
      if c = ':' then
        match parseStringLit (skipWs r2) with
        | none => none
        | some vv => some ((kv.1, vv.1), vv.2)
      else none

/-- Parse a comma-separated sequence of pairs; the fuel bounds recursion and
is instantiated with the candidate length, which always suffices. -/
def parsePairs : ℕ → List Char → Option (List (List Char × List Char) × List Char)
  | 0, _ => none
  | fuel + 1, s =>
    match parsePair s with
    | none => none
    | some kvr =>
      match skipWs kvr.2 with
      | [] => some ([kvr.1], [])
      | c :: r2 =>
        if c = ',' then
          match parsePairs fuel r2 with
          | none => none
          | some p => some (kvr.1 :: p.1, p.2)
        else some ([kvr.1], c :: r2)

/-- Parse one candidate substring as a JSON object of string fields;
anything malformed yields `none` and the candidate is skipped. -/
def parseObj (s : List Char) : Option (List (List Char × List Char)) :=
  match s with
  | [] => none
  | c :: r =>
    if c = lbrace then
      match parsePairs s.length r with
      | none => none
      | some p =>
        match skipWs p.2 with
        | [c2] => if c2 = rbrace then some p.1 else none
        | _ => none
    else none

/-- Polarity under which an agent response is parsed. -/
inductive Polarity
  | confirmation
  | contradiction
deriving DecidableEq

/-- Canonical evidence record produced by the parser (spec section 3). -/
structure EvidenceItem where
  quote : List Char
  reason : List Char
  source : List Char
  strength : List Char
deriving DecidableEq

/-- First value bound to a key in a parsed object. -/
def lookupKey (k : List Char) : List (List Char × List Char) → Option (List Char)
  | [] => none
  | kv :: t => if kv.1 = k then some kv.2 else lookupKey k t

/-- Polarity-specific strength default (spec sections 3 and 4.2). -/
def defaultStrength : Polarity → List Char
  | .confirmation => "Strong".data
  | .contradiction => "Medium".data

/-- Lower-cased copy of the text. -/
def lowerChars (l : List Char) : List Char := l.map Char.toLower

/-- Modelled from the spec: a present strength is matched case-insensitively
against the three recognised values; a missing or unrecognised strength falls
back to the polarity default. -/
def normStrength (pol : Polarity) (st : Option (List Char)) : List Char :=
  match st with
  | none => defaultStrength pol
  | some s =>
    if lowerChars s = "strong".data then "Strong".data
    else if lowerChars s = "medium".data then "Medium".data
    else if lowerChars s = "weak".data then "Weak".data
    else defaultStrength pol

/-- Modelled from the spec: build an `EvidenceItem` from a parsed object,
truncating `quote`, `reason` and `source` to 500 characters before the item
is returned (spec section 4.2). -/
def buildItem (pol : Polarity) (kvs : List (List Char × List Char)) : EvidenceItem :=
  { quote := ((lookupKey ("quote".data) kvs).getD []).take 500
    reason := ((lookupKey ("reason".data) kvs).getD []).take 500
    source := ((lookupKey ("source".data) kvs).getD []).take 500
    strength := normStrength pol (lookupKey ("strength".data) kvs) }

/-- Parse one candidate into an evidence item, if well formed. -/
def parseEvidence (pol : Polarity) (cand : List Char) : Option EvidenceItem :=
  (parseObj cand).map (buildItem pol)

/-- Modelled from the spec: all evidence items embedded in agent text. -/
def parseItems (pol : Polarity) (text : List Char) : List EvidenceItem :=
  (scanObjs text).filterMap (parseEvidence pol)

/-- The literal characters "confidence:". -/
def confToken : List Char := "confidence:".data

/-- Remove the pattern characters from the head of the input, if they all
match. -/
def stripPrefixChars : List Char → List Char → Option (List Char)
  | [], s => some s
  | _, [] => none
  | p :: ps, c :: cs => if c = p then stripPrefixChars ps cs else none

/-- A candidate confidence value is kept only when it lies in [0,1]
("decimal in [0,1]", spec section 4.2). -/
def confVal (v : ℚ) : Option ℚ := if v ≤ 1 then some v else none

/-- Parse the numeric part of a confidence mention. -/
def tryConfNum (r : List Char) : Option ℚ :=
  match r with
  | [] => none
  | c :: cs =>
    if c.isDigit then
      match takeDigits (c :: cs) with
      | (ds, []) => confVal (digitsToNat ds : ℚ)
      | (ds, d :: r3) =>
        if d = '.' then
          if (takeDigits r3).1 = [] then confVal (digitsToNat ds : ℚ)
          else confVal (decimalVal ds (takeDigits r3).1)
        else confVal (digitsToNat ds : ℚ)
    else none

/-- One attempt of the confidence pattern at the head of the input. -/
def tryConfAt (s : List Char) : Option ℚ :=
  match stripPrefixChars confToken s with
  | none => none
  | some r => tryConfNum (skipWs r)

/-- Modelled from the spec: scan the text for "confidence: 0.NN" mentions;
the last occurrence wins, and no mention yields `none`. -/
def extractConfidenceAux : List Char → Option ℚ
  | [] => none
  | c :: cs =>
    match tryConfAt (c :: cs) with
    | none => extractConfidenceAux cs
    | some v =>
      match extractConfidenceAux cs with
      | some w => some w
      | none => some v

/-- Whether the literal pattern "confidence:" occurs anywhere in the text. -/
def hasConfPat : List Char → Bool
  | [] => false
  | c :: cs => (stripPrefixChars confToken (c :: cs)).isSome || hasConfPat cs

/-- Result shape of `_parse_synthesis_response`. -/
structure SynthesisResult where
  confidence_score : ℚ
  confirmations : List EvidenceItem
  contradictions : List EvidenceItem
  synthesis : List Char

/-- Modelled from the spec: `_parse_synthesis_response` parses confirmations
out of the synthesis text, resolves the confidence signal, and passes the
existing contradictions through. -/
def parseSynthesisResponse (raw : List Char) (contradictions : List EvidenceItem) :
    SynthesisResult :=
  { confidence_score := resolveConfidence (extractConfidenceAux raw)
    confirmations := parseItems .confirmation raw
    contradictions := contradictions
    synthesis := raw }

/-- The mock synthesis text of spec section 8: two concatenated JSON objects
not wrapped in an array, prose, and a confidence line. -/
def mockSynthesisText : String :=
  "Executive Summary: strong momentum.\nConfirmations:\n\x7b\"quote\":\"A\",\"reason\":\"B\",\"source\":\"C\",\"strength\":\"Strong\"\x7d\n\x7b\"quote\":\"D\",\"reason\":\"E\",\"source\":\"F\",\"strength\":\"Strong\"\x7d\n\nconfidence: 0.84\n\nRecommendation: BULLISH\n"

/-! ## Abstract inputs for the parser robustness statement -/

/-- An evidence object as the synthesis agent serialises it; the strength
field may be absent. -/
structure EvObj where
  quote : List Char
  reason : List Char
  source : List Char
  strength : Option (List Char)

/-- The key-value pairs of a serialised evidence object. -/
def objFields (o : EvObj) : List (List Char × List Char) :=
  [("quote".data, o.quote), ("reason".data, o.reason), ("source".data, o.source)] ++
    (match o.strength with
     | none => []
     | some st => [("strength".data, st)])

/-- Serialise one `"key": "value"` field. -/
def renderField (k v : List Char) : List Char :=
  dquote :: k ++ dquote :: ':' :: ' ' :: dquote :: v ++ [dquote]

/-- Serialise fields separated by commas. -/
def renderFields : List (List Char × List Char) → List Char
  | [] => []
  | [kv] => renderField kv.1 kv.2
  | kv :: t => renderField kv.1 kv.2 ++ ',' :: ' ' :: renderFields t

/-- Serialise one evidence object. -/
def renderObj (o : EvObj) : List Char :=
  lbrace :: (renderFields (objFields o) ++ [rbrace])

/-- Prose chunks interleaved with serialised objects, ended by more prose. -/
def interleave : List (List Char × EvObj) → List Char → List Char
  | [], tail => tail
  | po :: t, tail => po.1 ++ (renderObj po.2 ++ interleave t tail)

/-- The chunk contains no brace, so the scanner treats it as prose. -/
def noBrace (l : List Char) : Bool := l.all (fun c => !(c = lbrace || c = rbrace))

/-- The chunk contains no brace and no quote, so it can sit inside a
serialised string field. -/
def cleanChunk (l : List Char) : Bool :=
  l.all (fun c => !(c = lbrace || c = rbrace || c = dquote))

/-- All string fields of the object are clean. -/
def cleanObj (o : EvObj) : Bool :=
  cleanChunk o.quote && cleanChunk o.reason && cleanChunk o.source &&
    (match o.strength with
     | none => true
     | some st => cleanChunk st)

/-! ## Database-save cleaning of evidence (main.py 189-225) -/

/-- An evidence row as written to the store by `process_hypothesis_adk`. -/
structure DbEvidence where
  quote : List Char
  reason : List Char
  source : List Char
  strength : List Char
deriving DecidableEq

/-- Embeds `contradiction_data` (main.py 195-201): field defaults and the
`[:500]` truncations applied before saving a contradiction. -/
def mainContradictionData (ev : List (List Char × List Char)) : DbEvidence :=
  { quote := ((lookupKey ("quote".data) ev).getD []).take 500
    reason := ((lookupKey ("reason".data) ev).getD
        ("Market analysis challenges this thesis".data)).take 500
    source := ((lookupKey ("source".data) ev).getD ("Agent Analysis".data)).take 500
    strength := (lookupKey ("strength".data) ev).getD ("Medium".data) }

/-- Embeds `confirmation_data` (main.py 213-220): field defaults and the
`[:500]` truncations applied before saving a confirmation. -/
def mainConfirmationData (ev : List (List Char × List Char)) : DbEvidence :=
  { quote := ((lookupKey ("quote".data) ev).getD []).take 500
    reason := ((lookupKey ("reason".data) ev).getD
        ("Market analysis supports this thesis".data)).take 500
    source := ((lookupKey ("source".data) ev).getD ("Agent Analysis".data)).take 500
    strength := (lookupKey ("strength".data) ev).getD ("Strong".data) }

/-! ## Price history (market_data_service.py 527-615) -/

/-- One price-history entry: date, price, volume. -/
structure HistEntry where
  date : String
  price : ℚ
  volume : ℚ
deriving DecidableEq

/-- Lexicographic comparison of text, as Python compares date strings. -/
def lexLe : List Char → List Char → Bool
  | [], _ => true
  | _ :: _, [] => false
  | a :: as, b :: bs =>
    if a < b then true
    else if b < a then false
    else lexLe as bs

/-- Insert into a sorted list, keeping earlier elements first on ties
(stable, as Python `sorted`). -/
def insertBy {α : Type} (le : α → α → Bool) (a : α) : List α → List α
  | [] => [a]
  | b :: t => if le a b then a :: b :: t else b :: insertBy le a t

/-- Insertion sort with the given comparison. -/
def sortBy {α : Type} (le : α → α → Bool) (l : List α) : List α :=
  l.foldr (insertBy le) []

/-- A raw provider row: date, close, volume. -/
abbrev ProviderRow : Type := String × ℚ × ℚ

/-- Embeds the Alpha Vantage branch of `get_price_history` (527-558): on a
non-empty daily series, the last `days` dates in descending order are mapped
to simulated entries and sorted ascending by date; an exception or an empty
series falls through. -/
def avBranch (timeShift : String → String) (sym : String) (days : ℕ)
    (avRes : Except String (List ProviderRow)) : Option (List HistEntry) :=
  match avRes with
  | .error _ => none
  | .ok ts =>
    if ts = [] then none
    else
      let sorted := (sortBy (fun a b => lexLe b.1.data a.1.data) ts).take days
      let history := sorted.map
        (fun d => HistEntry.mk (timeShift d.1) (applySimulationPrice sym d.2.1) d.2.2)
      some (sortBy (fun a b => lexLe a.date.data b.date.data) history)

/-- Embeds the FMP branch (560-580): the first `days` rows are mapped to
simulated entries and sorted ascending by date; an exception or an empty
payload falls through. -/
def fmpBranch (timeShift : String → String) (sym : String) (days : ℕ)
    (fmpRes : Except String (List ProviderRow)) : Option (List HistEntry) :=
  match fmpRes with
  | .error _ => none
  | .ok hist =>
    if hist = [] then none
    else
      let entries := (hist.take days).map
        (fun d => HistEntry.mk (timeShift d.1) (applySimulationPrice sym d.2.1) d.2.2)
      some (sortBy (fun a b => lexLe a.date.data b.date.data) entries)

/-- Embeds the yfinance branch (582-598): every downloaded row becomes a
simulated entry in download order; an exception or an empty frame falls
through. -/
def yfBranch (timeShift : String → String) (sym : String)
    (yfRes : Except String (List ProviderRow)) : Option (List HistEntry) :=
  match yfRes with
  | .error _ => none
  | .ok rows =>
    if rows = [] then none
    else
      some (rows.map
        (fun d => HistEntry.mk (timeShift d.1) (applySimulationPrice sym d.2.1) d.2.2))

/-- Embeds the generated-history loop (600-615): a multiplicative random walk
from base price 150, one entry per day, each rounded to 2 decimals. -/
def fallbackGo (timeShift : String → String) (fallbackDate : ℕ → String)
    (rand : ℕ → ℚ) (randVol : ℕ → ℕ) : ℕ → ℕ → ℚ → List HistEntry
  | _, 0, _ => []
  | i, n + 1, base =>
    HistEntry.mk (timeShift (fallbackDate i)) (pyRound2 (base * (1 + rand i)))
        ((randVol i : ℚ)) ::
      fallbackGo timeShift fallbackDate rand randVol (i + 1) n (base * (1 + rand i))

/-- The generated fallback history of `get_price_history`. -/
def fallbackHistory (timeShift : String → String) (fallbackDate : ℕ → String)
    (rand : ℕ → ℚ) (randVol : ℕ → ℕ) (days : ℕ) : List HistEntry :=
  fallbackGo timeShift fallbackDate rand randVol 0 days 150

/-- Strip leading and trailing whitespace, as Python `str.strip()`. -/
def pyStrip (s : String) : String :=
  String.mk (((s.data.dropWhile wsChar).reverse.dropWhile wsChar).reverse)

/-- Embeds `get_price_history` (market_data_service.py 527-615): providers are
consulted in order behind their API-key guards, every provider exception is
caught, and when every provider fails or returns nothing the generated
fallback history is returned. -/
def getPriceHistory (avKey fmpKey : Bool)
    (avRes fmpRes yfRes : Except String (List ProviderRow))
    (timeShift : String → String) (fallbackDate : ℕ → String)
    (rand : ℕ → ℚ) (randVol : ℕ → ℕ) (symbol : String) (days : ℕ) : List HistEntry :=
  let sym := pyStrip (pyUpper symbol)
  match (if avKey then avBranch timeShift sym days avRes else none) with
  | some h => h
  | none =>
    match (if fmpKey then fmpBranch timeShift sym days fmpRes else none) with
    | some h => h
    | none =>
      match yfBranch timeShift sym yfRes with
      | some h => h
      | none => fallbackHistory timeShift fallbackDate rand randVol days

/-- Product of `(1 + rand j)` for `j` in `[i, i + m)`. -/
def prodFrom (rand : ℕ → ℚ) : ℕ → ℕ → ℚ
  | _, 0 => 1
  | i, m + 1 => (1 + rand i) * prodFrom rand (i + 1) m

/-- Closed form of the k-th fallback price: the random walk from 150. -/
def walkPrice (rand : ℕ → ℚ) (k : ℕ) : ℚ := pyRound2 (150 * prodFrom rand 0 (k + 1))

/-- A provider attempt failed outright or produced an empty series. -/
def providerFailed (r : Except String (List ProviderRow)) : Prop :=
  (∃ e, r = Except.error e) ∨ r = Except.ok []

/-! ## Research tool wrappers (tools.py) -/

/-- Minimal shape of a market-data quote payload. -/
structure MarketQuote where
  currentPrice : ℚ
deriving DecidableEq

/-- Result dict of `market_data_search` (tools.py 8-30). -/
structure MarketDataResult where
  status : String
  data : Option MarketQuote
  price_history : Option (List HistEntry)
  error : Option String
  instrument : String

/-- Embeds `market_data_search` (tools.py 8-30): the quote fetch and the
history fetch run inside one `try`; any exception becomes a result with
status "error" and the message, instead of propagating. -/
def marketDataSearch (getQuote : Except String MarketQuote)
    (getHistory : Except String (List HistEntry)) (instrument : String) :
    MarketDataResult :=
  match getQuote with
  | .error e => ⟨"error", none, none, some e, instrument⟩
  | .ok q =>
    match getHistory with
    | .error e => ⟨"error", none, none, some e, instrument⟩
    | .ok h => ⟨"success", some q, some h, none, instrument⟩

/-- Result dict of `news_search` (tools.py 32-48). -/
structure NewsResult where
  status : String
  data : Option (List (List Char))
  error : Option String
  query : String

/-- Embeds `news_search` (tools.py 32-48). -/
def newsSearch (fetch : Except String (List (List Char))) (query : String) : NewsResult :=
  match fetch with
  | .error e => ⟨"error", none, some e, query⟩
  | .ok arts => ⟨"success", some arts, none, query⟩

/-- Result dict of `market_trends_tool` (tools.py 50-64). -/
structure TrendsResult where
  status : String
  data : Option (List Char)
  error : Option String
  instrument : String

/-- Embeds `market_trends_tool` (tools.py 50-64). -/
def marketTrendsTool (fetch : Except String (List Char)) (instrument : String) :
    TrendsResult :=
  match fetch with
  | .error e => ⟨"error", none, some e, instrument⟩
  | .ok d => ⟨"success", some d, none, instrument⟩

/-- Result dict of `hybrid_research_tool` (tools.py 150-170); on success the
inner result is returned as is. -/
structure HybridResult where
  status : String
  error : Option String
  hypothesis : String

/-- Embeds `hybrid_research_tool` (tools.py 150-170). -/
def hybridResearchTool (run : Except String HybridResult) (hypothesis : String) :
    HybridResult :=
  match run with
  | .ok r => r
  | .error e => ⟨"error", some e, hypothesis⟩

/-- The per-tool entries of the pipeline research-data mapping. -/
structure ResearchData where
  market_data_search : MarketDataResult
  news_search : NewsResult
  market_trends : TrendsResult
  hybrid_research : HybridResult

/-- Result shape of the orchestrator pipeline. -/
structure PipelineResult where
  status : String
  error : Option String
  processed_hypothesis : String
  research_data : ResearchData
  contradictions : List EvidenceItem
  confirmations : List EvidenceItem
  confidence_score : ℚ
  synthesis : List Char

/-- Modelled from the spec: `process_hypothesis` of the orchestrator (spec
section 4.1), absent from the source tree.  Each research capability is
invoked through its source-level wrapper so an individual failure degrades
only its own research-data entry; contradictions and confirmations come from
the agent texts via the parser; the confidence is resolved from the synthesis
text; the non-top-level-failure path returns status "success". -/
def processHypothesis
    (quoteCap : Except String MarketQuote) (histCap : Except String (List HistEntry))
    (newsCap : Except String (List (List Char))) (trendsCap : Except String (List Char))
    (hybridCap : Except String HybridResult)
    (hypothesis symbol query : String)
    (contraText synthText : List Char) : PipelineResult :=
  { status := "success"
    error := none
    processed_hypothesis := hypothesis
    research_data :=
      { market_data_search := marketDataSearch quoteCap histCap symbol
        news_search := newsSearch newsCap query
        market_trends := marketTrendsTool trendsCap symbol
        hybrid_research := hybridResearchTool hybridCap hypothesis }
    contradictions := parseItems .contradiction contraText
    confirmations := parseItems .confirmation synthText
    confidence_score := resolveConfidence (extractConfidenceAux synthText)
    synthesis := synthText }

/-! ## Supporting lemmas -/

theorem ratFloor_intCast (k : ℤ) : ratFloor (k : ℚ) = k := by
  simp [ratFloor, Rat.num_intCast, Rat.den_intCast, Int.fdiv_one]

theorem roundHalfEven_intCast (k : ℤ) : roundHalfEven (k : ℚ) = k := by
  simp only [roundHalfEven, ratFloor_intCast, sub_self]
  norm_num

theorem pyRound2_idem (q : ℚ) : pyRound2 (pyRound2 q) = pyRound2 q := by
  unfold pyRound2
  have h : ((roundHalfEven (q * 100) : ℚ)) / 100 * 100 = (roundHalfEven (q * 100) : ℚ) :=
    div_mul_cancel₀ _ (by norm_num)
  rw [h, roundHalfEven_intCast]

theorem takeDigits_split (ds b : List Char) (hd : allDigits ds = true)
    (hb : headNotDigit b = true) : takeDigits (ds ++ b) = (ds, b) := by
  induction ds with
  | nil =>
    simp only [List.nil_append]
    cases b with
    | nil => rfl
    | cons c cs =>
      simp only [headNotDigit, Bool.not_eq_eq_eq_not, Bool.not_true] at hb
      simp [takeDigits, hb]
  | cons c cs ih =>
    simp only [allDigits, List.all_cons, Bool.and_eq_true] at hd
    have ih2 := ih hd.2
    simp [takeDigits, hd.1, ih2]

theorem matchDollarAt_cond_none (c c2 : Char) (xs : List Char)
    (h : ¬(c = '$' ∧ c2.isDigit = true)) : matchDollarAt (c :: c2 :: xs) = none := by
  simp only [matchDollarAt]
  rw [if_neg h]

theorem matchDollarAt_cond_some (c c2 : Char) (xs : List Char)
    (h : c = '$' ∧ c2.isDigit = true) : (matchDollarAt (c :: c2 :: xs)).isSome = true := by
  simp only [matchDollarAt]
  rw [if_pos h]
  rcases ht : takeDigits (c2 :: xs) with ⟨ip, rest⟩
  cases rest with
  | nil => rfl
  | cons d r2 =>
    by_cases hd : d = '.'
    · by_cases hf : (takeDigits r2).1 = []
      · simp [hd, hf]
      · simp [hd, hf]
    · simp [hd]

theorem matchDollarAt_value_int (ds b : List Char) (hne : ds ≠ [])
    (hd : allDigits ds = true) (hb : headNotDigit b = true) (hf : notFracStart b = true) :
    matchDollarAt ('$' :: (ds ++ b)) = some (digitsToNat ds : ℚ) := by
  cases ds with
  | nil => exact absurd rfl hne
  | cons d ds2 =>
    have hdd : d.isDigit = true := by
      simp only [allDigits, List.all_cons, Bool.and_eq_true] at hd
      exact hd.1
    have ht : takeDigits (d :: (ds2 ++ b)) = (d :: ds2, b) := by
      have := takeDigits_split (d :: ds2) b hd hb
      simpa using this
    simp only [List.cons_append, matchDollarAt]
    rw [if_pos ⟨trivial, hdd⟩, ht]
    cases b with
    | nil => rfl
    | cons x r2 =>
      by_cases hx : x = '.'
      · subst hx
        cases r2 with
        | nil => simp [takeDigits]
        | cons y r3 =>
          have hy : y.isDigit = false := by
            simpa [notFracStart] using hf
          simp [takeDigits, hy]
      · simp [hx]

theorem matchDollarAt_value_dec (ds fs b : List Char) (hne : ds ≠ [])
    (hd : allDigits ds = true) (hfne : fs ≠ []) (hfd : allDigits fs = true)
    (hb : headNotDigit b = true) :
    matchDollarAt ('$' :: (ds ++ '.' :: (fs ++ b))) = some (decimalVal ds fs) := by
  cases ds with
  | nil => exact absurd rfl hne
  | cons d ds2 =>
    have hdd : d.isDigit = true := by
      simp only [allDigits, List.all_cons, Bool.and_eq_true] at hd
      exact hd.1
    have ht : takeDigits (d :: (ds2 ++ '.' :: (fs ++ b))) = (d :: ds2, '.' :: (fs ++ b)) := by
      have := takeDigits_split (d :: ds2) ('.' :: (fs ++ b)) hd (by simp [headNotDigit])
      simpa using this
    have ht2 : takeDigits (fs ++ b) = (fs, b) := takeDigits_split fs b hfd hb
    simp only [List.cons_append, matchDollarAt]
    rw [if_pos ⟨trivial, hdd⟩, ht]
    simp [ht2, hfne]

theorem extractAux_none (s : List Char) (h : hasDollarNum s = false) :
    extractTargetPriceAux s = 0 := by
  induction s with
  | nil => rfl
  | cons c cs ih =>
    simp only [hasDollarNum, Bool.or_eq_false_iff] at h
    have hm : matchDollarAt (c :: cs) = none := by
      cases hmm : matchDollarAt (c :: cs) with
      | none => rfl
      | some v => rw [hmm] at h; simp at h
    simp only [extractTargetPriceAux, hm]
    exact ih h.2

theorem extractAux_skip (a rest : List Char) (h : hasDollarNum a = false) :
    extractTargetPriceAux (a ++ '$' :: rest) = extractTargetPriceAux ('$' :: rest) := by
  induction a with
  | nil => rfl
  | cons c a2 ih =>
    simp only [hasDollarNum, Bool.or_eq_false_iff] at h
    have hm : matchDollarAt (c :: (a2 ++ '$' :: rest)) = none := by
      cases a2 with
      | nil =>
        apply matchDollarAt_cond_none
        rintro ⟨-, hdig⟩
        exact absurd hdig (by decide)
      | cons c2 a3 =>
        apply matchDollarAt_cond_none
        intro hc
        have hs := matchDollarAt_cond_some c c2 a3 hc
        rw [h.1] at hs
        exact Bool.noConfusion hs
    rw [List.cons_append]
    simp only [extractTargetPriceAux, hm]
    exact ih h.2

theorem extractAux_dollar_int (ds b : List Char) (hne : ds ≠ []) (hd : allDigits ds = true)
    (hb : headNotDigit b = true) (hf : notFracStart b = true) :
    extractTargetPriceAux ('$' :: (ds ++ b)) = (digitsToNat ds : ℚ) := by
  simp only [extractTargetPriceAux, matchDollarAt_value_int ds b hne hd hb hf]

theorem extractAux_dollar_dec (ds fs b : List Char) (hne : ds ≠ [])
    (hd : allDigits ds = true) (hfne : fs ≠ []) (hfd : allDigits fs = true)
    (hb : headNotDigit b = true) :
    extractTargetPriceAux ('$' :: (ds ++ '.' :: (fs ++ b))) = decimalVal ds fs := by
  simp only [extractTargetPriceAux, matchDollarAt_value_dec ds fs b hne hd hfne hfd hb]

/-! ## Parser roundtrip lemmas -/

theorem skipWs_cons_ws (c : Char) (l : List Char) (h : wsChar c = true) :
    skipWs (c :: l) = skipWs l := by
  simp [skipWs, h]

theorem skipWs_cons_not (c : Char) (l : List Char) (h : wsChar c = false) :
    skipWs (c :: l) = c :: l := by
  simp [skipWs, h]

theorem skipWs_ws_append (sp x : List Char) (h : sp.all wsChar = true) :
    skipWs (sp ++ x) = skipWs x := by
  induction sp with
  | nil => rfl
  | cons c cs ih =>
    simp only [List.all_cons, Bool.and_eq_true] at h
    rw [List.cons_append, skipWs_cons_ws c _ h.1, ih h.2]

theorem takeUntilQuote_split (v r : List Char) (hv : cleanChunk v = true) :
    takeUntilQuote (v ++ (dquote :: r)) = some (v, r) := by
  induction v with
  | nil =>
    simp [takeUntilQuote]
  | cons c cs ih =>
    simp only [cleanChunk, List.all_cons, Bool.and_eq_true] at hv
    have hcd : ¬(c = dquote) := by
      have h1 := hv.1
      simp at h1
      tauto
    rw [List.cons_append]
    simp only [takeUntilQuote]
    rw [if_neg hcd, ih hv.2]

theorem parseStringLit_split (v r : List Char) (hv : cleanChunk v = true) :
    parseStringLit (dquote :: (v ++ (dquote :: r))) = some (v, r) := by
  simp [parseStringLit, takeUntilQuote_split v r hv]

theorem renderField_eq (k v : List Char) :
    renderField k v = dquote :: (k ++ (dquote :: ':' :: ' ' :: dquote :: (v ++ [dquote]))) := by
  simp [renderField]

theorem parsePair_render (sp k v r : List Char) (hsp : sp.all wsChar = true)
    (hk : cleanChunk k = true) (hv : cleanChunk v = true) :
    parsePair (sp ++ (renderField k v ++ r)) = some ((k, v), r) := by
  have e0 : renderField k v ++ r =
      dquote :: (k ++ (dquote :: ':' :: ' ' :: dquote :: (v ++ (dquote :: r)))) := by
    rw [renderField_eq]
    simp
  have e1 : skipWs (sp ++ (renderField k v ++ r)) =
      dquote :: (k ++ (dquote :: ':' :: ' ' :: dquote :: (v ++ (dquote :: r)))) := by
    rw [skipWs_ws_append sp _ hsp, e0, skipWs_cons_not _ _ (by decide)]
  simp only [parsePair, e1, parseStringLit_split k _ hk]
  rw [skipWs_cons_not ':' _ (by decide)]
  simp only [if_pos rfl]
  rw [skipWs_cons_ws ' ' _ (by decide), skipWs_cons_not dquote _ (by decide),
    parseStringLit_split v r hv]
  simp

theorem parsePairs_mono (n : ℕ) :
    ∀ (m : ℕ) (s : List Char) (r : List (List Char × List Char) × List Char),
      parsePairs n s = some r → parsePairs (n + m) s = some r := by
  induction n with
  | zero =>
    intro m s r h
    exact absurd h (by simp [parsePairs])
  | succ k ih =>
    intro m s r h
    rw [Nat.succ_add]
    simp only [parsePairs] at h ⊢
    cases hp : parsePair s with
    | none => simp [hp] at h
    | some kvr =>
      obtain ⟨kv, r1⟩ := kvr
      simp only [hp] at h ⊢
      cases hw : skipWs r1 with
      | nil =>
        simp only [hw] at h ⊢
        exact h
      | cons c r2 =>
        simp only [hw] at h ⊢
        by_cases hc : c = ','
        · simp only [if_pos hc] at h ⊢
          cases hrec : parsePairs k r2 with
          | none => simp [hrec] at h
          | some kr =>
            simp only [hrec] at h
            simp only [ih m r2 kr hrec]
            exact h
        · simp only [if_neg hc] at h ⊢
          exact h

theorem parsePairs_render (fields : List (List Char × List Char)) :
    ∀ (sp : List Char), fields ≠ [] → sp.all wsChar = true →
      (∀ kv ∈ fields, cleanChunk kv.1 = true ∧ cleanChunk kv.2 = true) →
      parsePairs fields.length (sp ++ (renderFields fields ++ [rbrace])) =
        some (fields, [rbrace]) := by
  induction fields with
  | nil => intro sp h; exact absurd rfl h
  | cons kv t ih =>
    intro sp _ hsp hclean
    obtain ⟨hk, hv⟩ := hclean kv (List.mem_cons_self ..)
    cases t with
    | nil =>
      simp only [renderFields, List.length_cons, List.length_nil, parsePairs]
      simp only [parsePair_render sp kv.1 kv.2 [rbrace] hsp hk hv]
      simp only [skipWs_cons_not rbrace _ (by decide)]
      simp [(by decide : ¬(rbrace = ','))]
    | cons kv2 t2 =>
      have e0 : renderFields (kv :: kv2 :: t2) ++ [rbrace] =
          renderField kv.1 kv.2 ++ (',' :: (' ' :: (renderFields (kv2 :: t2) ++ [rbrace]))) := by
        simp only [renderFields]
        simp
      simp only [List.length_cons, parsePairs, e0]
      simp only [parsePair_render sp kv.1 kv.2 _ hsp hk hv]
      simp only [skipWs_cons_not ',' _ (by decide)]
      have ihq := ih [' '] (by simp) (by decide)
        (fun q hq => hclean q (List.mem_cons_of_mem _ hq))
      rw [show (' ' :: (renderFields (kv2 :: t2) ++ [rbrace])) =
        [' '] ++ (renderFields (kv2 :: t2) ++ [rbrace]) from rfl]
      simp only [List.length_cons] at ihq
      simp only [parsePairs] at ihq
      rw [ihq]
      simp

theorem objFields_ne (o : EvObj) : objFields o ≠ [] := by
  cases h : o.strength <;> simp [objFields, h]

theorem renderField_length (k v : List Char) :
    (renderField k v).length = k.length + v.length + 6 := by
  rw [renderField_eq]
  simp
  omega

theorem renderFields_length_ge (fields : List (List Char × List Char)) :
    fields.length ≤ (renderFields fields).length := by
  induction fields with
  | nil => simp
  | cons kv t ih =>
    cases t with
    | nil => simp [renderFields, renderField_length]
    | cons kv2 t2 =>
      have e0 : renderFields (kv :: kv2 :: t2) =
          renderField kv.1 kv.2 ++ (',' :: ' ' :: renderFields (kv2 :: t2)) := by
        simp only [renderFields]
      rw [e0]
      have h2 := ih
      simp only [List.length_cons, List.length_append, renderField_length] at h2 ⊢
      omega

theorem parseObj_render (o : EvObj)
    (hfields : ∀ kv ∈ objFields o, cleanChunk kv.1 = true ∧ cleanChunk kv.2 = true) :
    parseObj (renderObj o) = some (objFields o) := by
  have hne := objFields_ne o
  have base := parsePairs_render (objFields o) [] hne (by decide) hfields
  simp only [List.nil_append] at base
  have hlen : (objFields o).length ≤ (renderObj o).length := by
    simp only [renderObj, List.length_cons, List.length_append]
    have := renderFields_length_ge (objFields o)
    omega
  have full : parsePairs (renderObj o).length (renderFields (objFields o) ++ [rbrace]) =
      some (objFields o, [rbrace]) := by
    have := parsePairs_mono (objFields o).length ((renderObj o).length - (objFields o).length)
      _ _ base
    rwa [Nat.add_sub_cancel' hlen] at this
  simp only [renderObj, parseObj, if_true]
  rw [show (lbrace :: (renderFields (objFields o) ++ [rbrace])).length =
    (renderObj o).length from rfl]
  simp only [full]
  simp only [skipWs_cons_not rbrace _ (by decide)]
  simp

/-! ## Scanner lemmas -/

theorem noBrace_cons (c : Char) (l : List Char) :
    noBrace (c :: l) = (!(c = lbrace || c = rbrace) && noBrace l) := by
  simp [noBrace]

theorem noBrace_append (a b : List Char) : noBrace (a ++ b) = (noBrace a && noBrace b) := by
  simp [noBrace, List.all_append]

theorem cleanChunk_noBrace (l : List Char) (h : cleanChunk l = true) : noBrace l = true := by
  simp only [cleanChunk, List.all_eq_true] at h
  simp only [noBrace, List.all_eq_true]
  intro c hcmem
  have h2 := h c hcmem
  simp at h2 ⊢
  tauto

theorem noBrace_renderField (k v : List Char) (hk : cleanChunk k = true)
    (hv : cleanChunk v = true) : noBrace (renderField k v) = true := by
  have hk2 := cleanChunk_noBrace k hk
  have hv2 := cleanChunk_noBrace v hv
  rw [renderField_eq]
  simp only [noBrace_cons, noBrace_append, noBrace_cons, hk2, hv2]
  decide

theorem noBrace_renderFields (fields : List (List Char × List Char))
    (h : ∀ kv ∈ fields, cleanChunk kv.1 = true ∧ cleanChunk kv.2 = true) :
    noBrace (renderFields fields) = true := by
  induction fields with
  | nil => rfl
  | cons kv t ih =>
    obtain ⟨hk, hv⟩ := h kv (List.mem_cons_self ..)
    cases t with
    | nil => exact noBrace_renderField kv.1 kv.2 hk hv
    | cons kv2 t2 =>
      have e0 : renderFields (kv :: kv2 :: t2) =
          renderField kv.1 kv.2 ++ (',' :: ' ' :: renderFields (kv2 :: t2)) := by
        simp only [renderFields]
      rw [e0]
      have ih2 := ih (fun q hq => h q (List.mem_cons_of_mem _ hq))
      simp only [noBrace_append, noBrace_cons, ih2, noBrace_renderField kv.1 kv.2 hk hv]
      decide

theorem cleanObjFields (o : EvObj) (hc : cleanObj o = true) :
    ∀ kv ∈ objFields o, cleanChunk kv.1 = true ∧ cleanChunk kv.2 = true := by
  intro kv hkv
  cases hs : o.strength with
  | none =>
    simp only [cleanObj, hs, Bool.and_eq_true] at hc
    simp only [objFields, hs, List.append_nil, List.mem_cons, List.mem_singleton,
      List.not_mem_nil, or_false] at hkv
    rcases hkv with rfl | rfl | rfl
    · exact ⟨(by decide : cleanChunk ("quote".data) = true), hc.1.1.1⟩
    · exact ⟨(by decide : cleanChunk ("reason".data) = true), hc.1.1.2⟩
    · exact ⟨(by decide : cleanChunk ("source".data) = true), hc.1.2⟩
  | some st =>
    simp only [cleanObj, hs, Bool.and_eq_true] at hc
    simp only [objFields, hs, List.mem_append, List.mem_cons, List.mem_singleton,
      List.not_mem_nil, or_false] at hkv
    rcases hkv with (rfl | rfl | rfl) | rfl
    · exact ⟨(by decide : cleanChunk ("quote".data) = true), hc.1.1.1⟩
    · exact ⟨(by decide : cleanChunk ("reason".data) = true), hc.1.1.2⟩
    · exact ⟨(by decide : cleanChunk ("source".data) = true), hc.1.2⟩
    · exact ⟨(by decide : cleanChunk ("strength".data) = true), hc.2⟩

theorem noBrace_objBody (o : EvObj) (hc : cleanObj o = true) :
    noBrace (renderFields (objFields o)) = true :=
  noBrace_renderFields (objFields o) (cleanObjFields o hc)

theorem scanAux_prose (p : List Char) (hp : noBrace p = true) (t acc : List Char)
    (res : List (List Char)) :
    scanObjsAux (p ++ t) 0 acc res = scanObjsAux t 0 acc res := by
  induction p with
  | nil => rfl
  | cons c cs ih =>
    rw [noBrace_cons, Bool.and_eq_true] at hp
    have h1 : ¬(c = lbrace) ∧ ¬(c = rbrace) := by
      have := hp.1
      simp at this
      tauto
    rw [List.cons_append]
    simp only [scanObjsAux]
    rw [if_neg h1.1, if_neg h1.2, if_pos trivial]
    exact ih hp.2

theorem scanAux_body (b : List Char) (hb : noBrace b = true) (t : List Char) :
    ∀ (acc : List Char) (res : List (List Char)),
      scanObjsAux (b ++ t) 1 acc res = scanObjsAux t 1 (b.reverse ++ acc) res := by
  induction b with
  | nil => intro acc res; simp
  | cons c cs ih =>
    intro acc res
    rw [noBrace_cons, Bool.and_eq_true] at hb
    have h1 : ¬(c = lbrace) ∧ ¬(c = rbrace) := by
      have := hb.1
      simp at this
      tauto
    rw [List.cons_append]
    simp only [scanObjsAux]
    rw [if_neg h1.1, if_neg h1.2, if_neg (by decide : ¬((1 : ℕ) = 0))]
    rw [ih hb.2 (c :: acc)]
    simp

theorem scanAux_obj (body : List Char) (hb : noBrace body = true) (t : List Char)
    (res : List (List Char)) :
    scanObjsAux ((lbrace :: (body ++ [rbrace])) ++ t) 0 [] res =
      scanObjsAux t 0 [] ((lbrace :: (body ++ [rbrace])) :: res) := by
  rw [List.cons_append]
  simp only [scanObjsAux]
  rw [if_pos trivial, if_pos trivial]
  rw [List.append_assoc, scanAux_body body hb]
  rw [List.singleton_append]
  simp only [scanObjsAux]
  rw [if_neg (by decide : ¬(rbrace = lbrace)), if_pos trivial,
    if_neg (by decide : ¬((1 : ℕ) = 0)), if_pos trivial]
  congr 1
  simp

theorem scanAux_done (p : List Char) (hp : noBrace p = true) (res : List (List Char)) :
    scanObjsAux p 0 [] res = res.reverse := by
  have h := scanAux_prose p hp [] [] res
  simpa using h

theorem scan_interleave (pieces : List (List Char × EvObj)) (tail : List Char)
    (hp : ∀ po ∈ pieces, noBrace po.1 = true ∧ cleanObj po.2 = true)
    (ht : noBrace tail = true) :
    ∀ res : List (List Char),
      scanObjsAux (interleave pieces tail) 0 [] res =
        res.reverse ++ pieces.map (fun po => renderObj po.2) := by
  induction pieces with
  | nil =>
    intro res
    simp only [interleave, List.map_nil, List.append_nil]
    exact scanAux_done tail ht res
  | cons po t ih =>
    intro res
    obtain ⟨hpo1, hpo2⟩ := hp po (List.mem_cons_self ..)
    have hrest := fun q hq => hp q (List.mem_cons_of_mem _ hq)
    simp only [interleave]
    rw [scanAux_prose po.1 hpo1]
    rw [show renderObj po.2 ++ interleave t tail =
      (lbrace :: (renderFields (objFields po.2) ++ [rbrace])) ++ interleave t tail from rfl]
    rw [scanAux_obj _ (noBrace_objBody po.2 hpo2)]
    rw [show (lbrace :: (renderFields (objFields po.2) ++ [rbrace])) = renderObj po.2 from rfl]
    rw [ih hrest (renderObj po.2 :: res)]
    simp

theorem parseItems_interleave (pieces : List (List Char × EvObj)) (tail : List Char)
    (hp : ∀ po ∈ pieces, noBrace po.1 = true ∧ cleanObj po.2 = true)
    (ht : noBrace tail = true) (pol : Polarity) :
    parseItems pol (interleave pieces tail) =
      pieces.map (fun po => buildItem pol (objFields po.2)) := by
  unfold parseItems scanObjs
  rw [scan_interleave pieces tail hp ht []]
  simp only [List.reverse_nil, List.nil_append]
  induction pieces with
  | nil => rfl
  | cons po t ih =>
    obtain ⟨hpo1, hpo2⟩ := hp po (List.mem_cons_self ..)
    have hrest := fun q hq => hp q (List.mem_cons_of_mem _ hq)
    simp only [List.map_cons, List.filterMap_cons]
    rw [show parseEvidence pol (renderObj po.2) =
      some (buildItem pol (objFields po.2)) from by
        simp [parseEvidence, parseObj_render po.2 (cleanObjFields po.2 hpo2)]]
    rw [ih hrest]

/-! ## Confidence extraction lemmas -/

theorem extractConfAux_append (s t : List Char) (v : ℚ)
    (h : extractConfidenceAux t = some v) :
    extractConfidenceAux (s ++ t) = some v := by
  induction s with
  | nil => simpa using h
  | cons c cs ih =>
    rw [List.cons_append]
    simp only [extractConfidenceAux]
    cases htry : tryConfAt (c :: (cs ++ t)) with
    | none => exact ih
    | some u =>
      rw [ih]

theorem extractConfAux_nopat (s : List Char) (h : hasConfPat s = false) :
    extractConfidenceAux s = none := by
  induction s with
  | nil => rfl
  | cons c cs ih =>
    simp only [hasConfPat, Bool.or_eq_false_iff] at h
    have hnone : stripPrefixChars confToken (c :: cs) = none := by
      cases hx : stripPrefixChars confToken (c :: cs) with
      | none => rfl
      | some r => rw [hx] at h; simp at h
    simp only [extractConfidenceAux, tryConfAt, hnone]
    exact ih h.2

theorem stripPrefixChars_append (pat : List Char) :
    ∀ (x y rest : List Char), stripPrefixChars pat x = some rest →
      stripPrefixChars pat (x ++ y) = some (rest ++ y) := by
  induction pat with
  | nil =>
    intro x y rest h
    simp only [stripPrefixChars] at h ⊢
    rw [← Option.some_inj.mp h]
  | cons p ps ih =>
    intro x y rest h
    cases x with
    | nil => simp [stripPrefixChars] at h
    | cons c cs =>
      simp only [stripPrefixChars] at h
      rw [List.cons_append]
      simp only [stripPrefixChars]
      by_cases hc : c = p
      · rw [if_pos hc] at h ⊢
        exact ih cs y rest h
      · rw [if_neg hc] at h
        exact absurd h (by simp)

theorem extractConfAux_step (c0 : Char) (cs : List Char) (v : ℚ)
    (h1 : tryConfAt (c0 :: cs) = some v) (h2 : extractConfidenceAux cs = none) :
    extractConfidenceAux (c0 :: cs) = some v := by
  simp only [extractConfidenceAux, h1, h2]

theorem extractConfAux_token (c : List Char)
    (hpat : hasConfPat ("onfidence: 0.84".data ++ c) = false)
    (hc : headNotDigit c = true) :
    extractConfidenceAux ("confidence: 0.84".data ++ c) = some (84/100) := by
  rw [show ("confidence: 0.84".data : List Char) = 'c' :: "onfidence: 0.84".data from rfl]
  rw [List.cons_append]
  have htry : tryConfAt ('c' :: ("onfidence: 0.84".data ++ c)) = some (84/100) := by
    unfold tryConfAt
    have hsp : stripPrefixChars confToken ('c' :: "onfidence: 0.84".data) =
        some (" 0.84".data) := by decide
    have hsp2 := stripPrefixChars_append confToken ('c' :: "onfidence: 0.84".data) c _ hsp
    rw [List.cons_append] at hsp2
    rw [hsp2]
    rw [show (" 0.84".data : List Char) ++ c = ' ' :: ("0.84".data ++ c) from by
      rw [show (" 0.84".data : List Char) = ' ' :: "0.84".data from rfl, List.cons_append]]
    show tryConfNum (skipWs (' ' :: ("0.84".data ++ c))) = some (84/100)
    rw [skipWs_cons_ws ' ' _ (by decide)]
    rw [show ("0.84".data : List Char) ++ c = '0' :: ('.' :: ("84".data ++ c)) from by
      rw [show ("0.84".data : List Char) = '0' :: ('.' :: "84".data) from rfl]
      simp]
    rw [skipWs_cons_not '0' _ (by decide)]
    simp only [tryConfNum, if_pos (by decide : ('0').isDigit = true)]
    have ht1 : takeDigits ('0' :: ('.' :: ("84".data ++ c))) =
        (['0'], '.' :: ("84".data ++ c)) := by
      have := takeDigits_split ['0'] ('.' :: ("84".data ++ c)) (by decide)
        (by simp only [headNotDigit]; decide)
      simpa using this
    rw [ht1]
    have ht2 : takeDigits ("84".data ++ c) = ("84".data, c) :=
      takeDigits_split _ c (by decide) hc
    simp only [if_pos rfl, ht2]
    rw [if_neg (by decide : ¬(("84".data : List Char) = []))]
    decide
  exact extractConfAux_step 'c' _ _ htry (extractConfAux_nopat _ hpat)

/-! ## Claim theorems, first group -/

/-- C9: for every positive raw price the service reports a simulated price:
`round(1.43*p, 2)` in general, and `round(p, 2)` unchanged when the upper-cased
symbol is NVDA and the price exceeds 175.  Non-positive or missing prices pass
through unmodified, and the `currentPrice` reported by the Alpha Vantage fetch
path equals the simulated price. -/
theorem simulated_price_reporting (symbol : String) (p : ℚ) :
    (p ≤ 0 → applySimulationPrice symbol p = p) ∧
    applySimulationPriceOpt symbol none = none ∧
    (0 < p → pyUpper symbol = "NVDA" → 175 < p →
      applySimulationPrice symbol p = pyRound2 p) ∧
    (0 < p → ¬(pyUpper symbol = "NVDA" ∧ 175 < p) →
      applySimulationPrice symbol p = pyRound2 ((143/100) * p)) ∧
    (0 < p → avCurrentPrice symbol p = applySimulationPrice symbol p) := by
  refine ⟨?_, rfl, ?_, ?_, ?_⟩
  · intro hp
    simp [applySimulationPrice, hp]
  · intro hp hu h175
    simp [applySimulationPrice, not_le.mpr hp, hu, h175]
  · intro hp hcond
    simp only [applySimulationPrice]
    rw [if_neg (not_le.mpr hp), if_neg hcond, mul_comm]
  · intro hp
    by_cases hc : pyUpper symbol = "NVDA" ∧ 175 < p
    · simp [avCurrentPrice, applySimulationPrice, not_le.mpr hp, hc, pyRound2_idem]
    · simp [avCurrentPrice, applySimulationPrice, not_le.mpr hp, hc, pyRound2_idem]

/-- Witness for C9 at symbol "AAPL" and raw price 100. -/
theorem simulated_price_reporting_witness :
    (0 : ℚ) < 100 ∧ ¬(pyUpper "AAPL" = "NVDA" ∧ (175 : ℚ) < 100) ∧
      applySimulationPrice "AAPL" 100 = pyRound2 ((143/100) * 100) :=
  ⟨by decide, by decide,
    (simulated_price_reporting "AAPL" 100).2.2.2.1 (by decide) (by decide)⟩

/-- C7: `_extract_target_price` returns the value of the first
currency-prefixed numeric token as its result (integer or decimal form), and
0 when no such token occurs; on the spec scenario it returns 150. -/
theorem price_target_extraction :
    extractTargetPrice "NVDA will reach $150 by June 2026" = 150 ∧
    (∀ s : List Char, hasDollarNum s = false → extractTargetPriceAux s = 0) ∧
    (∀ a ds b : List Char, hasDollarNum a = false → ds ≠ [] → allDigits ds = true →
      headNotDigit b = true → notFracStart b = true →
      extractTargetPriceAux (a ++ '$' :: (ds ++ b)) = (digitsToNat ds : ℚ)) ∧
    (∀ a ds fs b : List Char, hasDollarNum a = false → ds ≠ [] → allDigits ds = true →
      fs ≠ [] → allDigits fs = true → headNotDigit b = true →
      extractTargetPriceAux (a ++ '$' :: (ds ++ '.' :: (fs ++ b))) = decimalVal ds fs) := by
  refine ⟨by decide, extractAux_none, ?_, ?_⟩
  · intro a ds b ha hne hd hb hf
    rw [extractAux_skip a _ ha, extractAux_dollar_int ds b hne hd hb hf]
  · intro a ds fs b ha hne hd hfne hfd hb
    rw [extractAux_skip a _ ha, extractAux_dollar_dec ds fs b hne hd hfne hfd hb]

/-- Witness for C7 on the text "Sell at $42 soon". -/
theorem price_target_extraction_witness :
    hasDollarNum ("Sell at ".data) = false ∧ ("42".data ≠ ([] : List Char)) ∧
      allDigits ("42".data) = true ∧ headNotDigit (" soon".data) = true ∧
      notFracStart (" soon".data) = true ∧
      extractTargetPriceAux ("Sell at ".data ++ '$' :: ("42".data ++ " soon".data)) =
        (digitsToNat ("42".data) : ℚ) :=
  ⟨by decide, by decide, by decide, by decide, by decide,
    price_target_extraction.2.2.1 _ _ _ (by decide) (by decide) (by decide) (by decide)
      (by decide)⟩

/-- C2: the resolved confidence uses an in-range parsed value as is, defaults
to 0.5 when no parsed value exists, clamps out-of-range values into [0,1],
and always lies in [0,1]; the caller-side default is also 0.5. -/
theorem confidence_resolution (parsed : Option ℚ) :
    (parsed = none → resolveConfidence parsed = 1/2) ∧
    (∀ c, parsed = some c → 0 ≤ c → c ≤ 1 → resolveConfidence parsed = c) ∧
    (∀ c, parsed = some c → c < 0 → resolveConfidence parsed = 0) ∧
    (∀ c, parsed = some c → 1 < c → resolveConfidence parsed = 1) ∧
    (0 ≤ resolveConfidence parsed ∧ resolveConfidence parsed ≤ 1) ∧
    mainConfidenceScore none = 1/2 := by
  refine ⟨?_, ?_, ?_, ?_, ?_, rfl⟩
  · intro h; subst h; rfl
  · intro c h h0 h1; subst h
    simp [resolveConfidence, not_lt.mpr h0, not_lt.mpr h1]
  · intro c h hc; subst h
    simp [resolveConfidence, hc]
  · intro c h hc; subst h
    have h0 : ¬ c < 0 := not_lt.mpr (le_of_lt (lt_trans zero_lt_one hc))
    simp [resolveConfidence, h0, hc]
  · cases parsed with
    | none =>
      constructor <;> norm_num [resolveConfidence]
    | some c =>
      simp only [resolveConfidence]
      split_ifs with h1 h2
      · norm_num
      · norm_num
      · exact ⟨not_lt.mp h1, not_lt.mp h2⟩

/-- Witness for C2 at the out-of-range parsed value 6/5. -/
theorem confidence_resolution_witness :
    (1 : ℚ) < 6/5 ∧ resolveConfidence (some (6/5)) = 1 :=
  ⟨by decide, (confidence_resolution (some (6/5))).2.2.2.1 (6/5) rfl (by decide)⟩

/-- C8: a request whose resolved input text (hypothesis, falling back to idea
and context) is empty or absent is rejected with HTTP 400 before the
orchestrator runs, for every orchestrator; a missing mode defaults to
"analyze" in the orchestrator call. -/
theorem process_input_gate :
    (∀ (r : ProcessRequest), resolvedInput r = "" →
      ∀ (α : Type) (orch : String → String → α), processEndpoint orch r = Except.error 400) ∧
    (∀ h i c m, (h = none ∨ h = some "") → (i = none ∨ i = some "") →
      (c = none ∨ c = some "") → resolvedInput ⟨h, i, c, m⟩ = "") ∧
    (∀ (r : ProcessRequest) (α : Type) (orch : String → String → α),
      resolvedInput r ≠ "" →
      processEndpoint orch r = Except.ok (orch (resolvedInput r) (r.mode.getD "analyze"))) ∧
    (∀ (r : ProcessRequest), r.mode = none → r.mode.getD "analyze" = "analyze") := by
  refine ⟨?_, ?_, ?_, ?_⟩
  · intro r hr α orch
    simp [processEndpoint, hr]
  · intro h i c m hh hi hc
    rcases hh with rfl | rfl <;> rcases hi with rfl | rfl <;> rcases hc with rfl | rfl <;> rfl
  · intro r α orch hr
    simp [processEndpoint, hr]
  · intro r hm
    rw [hm]
    rfl

/-- Witness for C8 at a request carrying only an empty idea field. -/
theorem process_input_gate_witness :
    resolvedInput ⟨none, some "", none, none⟩ = "" ∧
      processEndpoint (fun _ _ => (7 : ℕ)) ⟨none, some "", none, none⟩ = Except.error 400 :=
  ⟨by decide, process_input_gate.1 ⟨none, some "", none, none⟩ (by decide) ℕ (fun _ _ => 7)⟩

/-! ## Claim theorems, second group -/

/-- C3: for any prose interleaving of N serialised evidence objects — array
brackets count as prose to the balanced-brace scanner, so array-wrapped and
bare concatenated objects parse alike — the parser returns exactly the N
corresponding evidence items and ignores the prose; on the spec scenario mock
text it yields confidence 0.84 and exactly two confirmations, the first with
strength "Strong". -/
theorem parser_robustness :
    (∀ (pieces : List (List Char × EvObj)) (tail : List Char) (pol : Polarity),
      (∀ po ∈ pieces, noBrace po.1 = true ∧ cleanObj po.2 = true) →
      noBrace tail = true →
      parseItems pol (interleave pieces tail) =
        pieces.map (fun po => buildItem pol (objFields po.2)) ∧
      (parseItems pol (interleave pieces tail)).length = pieces.length) ∧
    (parseSynthesisResponse mockSynthesisText.data []).confidence_score = 84/100 ∧
    (parseSynthesisResponse mockSynthesisText.data []).confirmations.length = 2 ∧
    (parseSynthesisResponse mockSynthesisText.data []).confirmations.head? =
      some ⟨"A".data, "B".data, "C".data, "Strong".data⟩ := by
  refine ⟨?_, ?_, ?_, ?_⟩
  · intro pieces tail pol hp ht
    have h := parseItems_interleave pieces tail hp ht pol
    exact ⟨h, by rw [h]; simp⟩
  · decide
  · decide
  · decide

/-- Witness for C3 on an array-wrapped pair of objects, one missing its
strength field. -/
theorem parser_robustness_witness :
    (∀ po ∈ ([("intro [".data, ⟨"A".data, "B".data, "C".data, some ("Strong".data)⟩),
              (", ".data, ⟨"D".data, "E".data, "F".data, none⟩)] :
        List (List Char × EvObj)),
      noBrace po.1 = true ∧ cleanObj po.2 = true) ∧
    noBrace ("] done".data) = true ∧
    parseItems Polarity.confirmation
        (interleave
          [("intro [".data, ⟨"A".data, "B".data, "C".data, some ("Strong".data)⟩),
           (", ".data, ⟨"D".data, "E".data, "F".data, none⟩)] ("] done".data)) =
      [buildItem Polarity.confirmation
        (objFields ⟨"A".data, "B".data, "C".data, some ("Strong".data)⟩),
       buildItem Polarity.confirmation (objFields ⟨"D".data, "E".data, "F".data, none⟩)] :=
  ⟨by decide, by decide, by
    have h := (parser_robustness.1
      [("intro [".data, ⟨"A".data, "B".data, "C".data, some ("Strong".data)⟩),
       (", ".data, ⟨"D".data, "E".data, "F".data, none⟩)] ("] done".data)
      Polarity.confirmation (by decide) (by decide)).1
    simpa using h⟩

/-- C4: when the text mentions "confidence: 0.30" and later
"confidence: 0.84", with no further mention after the latter, the last
occurrence wins and the resolved confidence is 0.84. -/
theorem confidence_last_match (a b c : List Char)
    (hpat : hasConfPat ("onfidence: 0.84".data ++ c) = false)
    (hc : headNotDigit c = true) :
    resolveConfidence (extractConfidenceAux
      (a ++ ("confidence: 0.30".data ++ (b ++ ("confidence: 0.84".data ++ c))))) =
      84/100 := by
  have h84 := extractConfAux_token c hpat hc
  have h2 := extractConfAux_append b _ _ h84
  have h3 := extractConfAux_append ("confidence: 0.30".data) _ _ h2
  have h4 := extractConfAux_append a _ _ h3
  rw [h4]
  decide

/-- Witness for C4 on a concrete two-mention text. -/
theorem confidence_last_match_witness :
    hasConfPat ("onfidence: 0.84".data ++ " end".data) = false ∧
    headNotDigit (" end".data) = true ∧
    resolveConfidence (extractConfidenceAux
      ("Report: ".data ++ ("confidence: 0.30".data ++
        (" and later ".data ++ ("confidence: 0.84".data ++ " end".data))))) = 84/100 :=
  ⟨by decide, by decide,
    confidence_last_match ("Report: ".data) (" and later ".data) (" end".data)
      (by decide) (by decide)⟩

/-- C5: a parsed evidence object with no strength field yields strength
"Strong" under confirmation polarity and "Medium" under contradiction
polarity, both in the parser model and in the database-save cleaning of
main.py. -/
theorem strength_polarity_default (kvs : List (List Char × List Char))
    (h : lookupKey ("strength".data) kvs = none) :
    (buildItem .confirmation kvs).strength = "Strong".data ∧
    (buildItem .contradiction kvs).strength = "Medium".data ∧
    (mainConfirmationData kvs).strength = "Strong".data ∧
    (mainContradictionData kvs).strength = "Medium".data := by
  refine ⟨?_, ?_, ?_, ?_⟩ <;>
    simp [buildItem, normStrength, h, defaultStrength, mainConfirmationData,
      mainContradictionData]

/-- Witness for C5 at an object carrying only a quote. -/
theorem strength_polarity_default_witness :
    lookupKey ("strength".data) [(("quote".data : List Char), ("A".data : List Char))] =
      none ∧
    (buildItem .confirmation [("quote".data, "A".data)]).strength = "Strong".data :=
  ⟨by decide, (strength_polarity_default [("quote".data, "A".data)] (by decide)).1⟩

/-- C6: every evidence item built by the parser has quote, reason and source
truncated to at most 500 characters, an 800-character quote appears as its
500-character prefix, and the database-save cleaning truncates likewise. -/
theorem bounded_evidence_fields (pol : Polarity) (kvs : List (List Char × List Char)) :
    (buildItem pol kvs).quote.length ≤ 500 ∧
    (buildItem pol kvs).reason.length ≤ 500 ∧
    (buildItem pol kvs).source.length ≤ 500 ∧
    (∀ q, lookupKey ("quote".data) kvs = some q → q.length = 800 →
      (buildItem pol kvs).quote = q.take 500 ∧ (buildItem pol kvs).quote.length = 500) ∧
    (mainContradictionData kvs).quote.length ≤ 500 ∧
    (mainConfirmationData kvs).quote.length ≤ 500 ∧
    (∀ q, lookupKey ("quote".data) kvs = some q →
      (mainConfirmationData kvs).quote = q.take 500) := by
  refine ⟨?_, ?_, ?_, ?_, ?_, ?_, ?_⟩
  · simp only [buildItem]
    exact List.length_take_le 500 _
  · simp only [buildItem]
    exact List.length_take_le 500 _
  · simp only [buildItem]
    exact List.length_take_le 500 _
  · intro q hq h800
    constructor
    · simp [buildItem, hq]
    · simp [buildItem, hq, List.length_take, h800]
  · simp only [mainContradictionData]
    exact List.length_take_le 500 _
  · simp only [mainConfirmationData]
    exact List.length_take_le 500 _
  · intro q hq
    simp [mainConfirmationData, hq]

/-- Witness for C6 at an 800-character quote. -/
theorem bounded_evidence_fields_witness :
    lookupKey ("quote".data) [(("quote".data : List Char), List.replicate 800 'x')] =
      some (List.replicate 800 'x') ∧
    (List.replicate 800 'x').length = 800 ∧
    (buildItem Polarity.confirmation [("quote".data, List.replicate 800 'x')]).quote =
      (List.replicate 800 'x').take 500 :=
  ⟨by simp [lookupKey], by simp,
    ((bounded_evidence_fields Polarity.confirmation
        [("quote".data, List.replicate 800 'x')]).2.2.2.1
      (List.replicate 800 'x') (by simp [lookupKey]) (by simp)).1⟩

/-- C1: each research tool wrapper converts an exception of its underlying
call into a result with status "error" carrying the message, and the pipeline
still returns status "success" with the market-data research entry marked
"error" while confirmations and contradictions are produced from the
unaffected agent texts. -/
theorem tool_failure_isolation (e e2 e3 e4 : String) (q : MarketQuote)
    (histCap : Except String (List HistEntry))
    (newsCap : Except String (List (List Char)))
    (trendsCap : Except String (List Char)) (hybridCap : Except String HybridResult)
    (hypothesis symbol query : String) (contraText synthText : List Char) :
    (marketDataSearch (Except.error e) histCap symbol).status = "error" ∧
    (marketDataSearch (Except.error e) histCap symbol).error = some e ∧
    (marketDataSearch (Except.ok q) (Except.error e) symbol).status = "error" ∧
    (newsSearch (Except.error e2) query).status = "error" ∧
    (newsSearch (Except.error e2) query).error = some e2 ∧
    (marketTrendsTool (Except.error e3) symbol).status = "error" ∧
    (marketTrendsTool (Except.error e3) symbol).error = some e3 ∧
    (hybridResearchTool (Except.error e4) hypothesis).status = "error" ∧
    (hybridResearchTool (Except.error e4) hypothesis).error = some e4 ∧
    (processHypothesis (Except.error e) histCap newsCap trendsCap hybridCap
        hypothesis symbol query contraText synthText).status = "success" ∧
    (processHypothesis (Except.error e) histCap newsCap trendsCap hybridCap
        hypothesis symbol query contraText synthText).research_data.market_data_search.status
      = "error" ∧
    (processHypothesis (Except.error e) histCap newsCap trendsCap hybridCap
        hypothesis symbol query contraText synthText).research_data.market_data_search.error
      = some e ∧
    (processHypothesis (Except.error e) histCap newsCap trendsCap hybridCap
        hypothesis symbol query contraText synthText).confirmations =
      parseItems .confirmation synthText ∧
    (processHypothesis (Except.error e) histCap newsCap trendsCap hybridCap
        hypothesis symbol query contraText synthText).contradictions =
      parseItems .contradiction contraText :=
  ⟨rfl, rfl, rfl, rfl, rfl, rfl, rfl, rfl, rfl, rfl, rfl, rfl, rfl, rfl⟩

/-! ## Price history lemmas and claim C10 -/

theorem length_insertBy {α : Type} (le : α → α → Bool) (a : α) (l : List α) :
    (insertBy le a l).length = l.length + 1 := by
  induction l with
  | nil => rfl
  | cons b t ih =>
    simp only [insertBy]
    by_cases h : le a b
    · rw [if_pos h]
      rfl
    · rw [if_neg h]
      simp [ih]

theorem length_sortBy {α : Type} (le : α → α → Bool) (l : List α) :
    (sortBy le l).length = l.length := by
  induction l with
  | nil => rfl
  | cons b t ih =>
    show (insertBy le b (sortBy le t)).length = (b :: t).length
    rw [length_insertBy, ih]
    rfl

theorem avBranch_length (timeShift : String → String) (sym : String) (days : ℕ)
    (avRes : Except String (List ProviderRow)) (h : List HistEntry)
    (hb : avBranch timeShift sym days avRes = some h) (hd : 0 < days) : 0 < h.length := by
  cases avRes with
  | error e => simp [avBranch] at hb
  | ok ts =>
    by_cases hts : ts = []
    · simp [avBranch, hts] at hb
    · simp only [avBranch, if_neg hts] at hb
      have hb2 := Option.some_inj.mp hb
      rw [← hb2, length_sortBy, List.length_map, List.length_take, length_sortBy]
      exact Nat.lt_min.mpr ⟨hd, List.length_pos.mpr hts⟩

theorem fmpBranch_length (timeShift : String → String) (sym : String) (days : ℕ)
    (fmpRes : Except String (List ProviderRow)) (h : List HistEntry)
    (hb : fmpBranch timeShift sym days fmpRes = some h) (hd : 0 < days) : 0 < h.length := by
  cases fmpRes with
  | error e => simp [fmpBranch] at hb
  | ok hist =>
    by_cases hh : hist = []
    · simp [fmpBranch, hh] at hb
    · simp only [fmpBranch, if_neg hh] at hb
      have hb2 := Option.some_inj.mp hb
      rw [← hb2, length_sortBy, List.length_map, List.length_take]
      exact Nat.lt_min.mpr ⟨hd, List.length_pos.mpr hh⟩

theorem yfBranch_length (timeShift : String → String) (sym : String)
    (yfRes : Except String (List ProviderRow)) (h : List HistEntry)
    (hb : yfBranch timeShift sym yfRes = some h) : 0 < h.length := by
  cases yfRes with
  | error e => simp [yfBranch] at hb
  | ok rows =>
    by_cases hr : rows = []
    · simp [yfBranch, hr] at hb
    · simp only [yfBranch, if_neg hr] at hb
      have hb2 := Option.some_inj.mp hb
      rw [← hb2, List.length_map]
      exact List.length_pos.mpr hr

theorem fallbackGo_length (timeShift : String → String) (fallbackDate : ℕ → String)
    (rand : ℕ → ℚ) (randVol : ℕ → ℕ) :
    ∀ (n i : ℕ) (base : ℚ),
      (fallbackGo timeShift fallbackDate rand randVol i n base).length = n := by
  intro n
  induction n with
  | zero => intro i base; rfl
  | succ k ih =>
    intro i base
    simp only [fallbackGo, List.length_cons, ih]

theorem fallbackGo_prices (timeShift : String → String) (fallbackDate : ℕ → String)
    (rand : ℕ → ℚ) (randVol : ℕ → ℕ) :
    ∀ (n i : ℕ) (base : ℚ),
      (fallbackGo timeShift fallbackDate rand randVol i n base).map HistEntry.price =
        (List.range n).map (fun k => pyRound2 (base * prodFrom rand i (k + 1))) := by
  intro n
  induction n with
  | zero => intro i base; rfl
  | succ k ih =>
    intro i base
    rw [List.range_succ_eq_map]
    simp only [fallbackGo, List.map_cons, List.map_map]
    congr 1
    · simp [prodFrom]
    · rw [ih (i + 1) (base * (1 + rand i))]
      apply List.map_congr_left
      intro x _
      simp only [Function.comp]
      rw [show prodFrom rand i (x + 1 + 1) = (1 + rand i) * prodFrom rand (i + 1) (x + 1)
        from rfl]
      congr 1
      ring

theorem avBranch_none_of_failed (timeShift : String → String) (sym : String) (days : ℕ)
    (avRes : Except String (List ProviderRow)) (hf : providerFailed avRes) :
    avBranch timeShift sym days avRes = none := by
  rcases hf with ⟨e, rfl⟩ | rfl
  · rfl
  · simp [avBranch]

theorem fmpBranch_none_of_failed (timeShift : String → String) (sym : String) (days : ℕ)
    (fmpRes : Except String (List ProviderRow)) (hf : providerFailed fmpRes) :
    fmpBranch timeShift sym days fmpRes = none := by
  rcases hf with ⟨e, rfl⟩ | rfl
  · rfl
  · simp [fmpBranch]

theorem yfBranch_none_of_failed (timeShift : String → String) (sym : String)
    (yfRes : Except String (List ProviderRow)) (hf : providerFailed yfRes) :
    yfBranch timeShift sym yfRes = none := by
  rcases hf with ⟨e, rfl⟩ | rfl
  · rfl
  · simp [yfBranch]

/-- C10: `get_price_history` returns a non-empty list of date-price-volume
entries for every positive day count, and when every provider fails or
returns nothing it returns exactly `days` synthetically generated entries
following the multiplicative random walk from base price 150, with no error
marker distinguishing them from provider data. -/
theorem price_history_fallback (avKey fmpKey : Bool)
    (avRes fmpRes yfRes : Except String (List ProviderRow))
    (timeShift : String → String) (fallbackDate : ℕ → String)
    (rand : ℕ → ℚ) (randVol : ℕ → ℕ) (symbol : String) (days : ℕ) :
    (0 < days →
      getPriceHistory avKey fmpKey avRes fmpRes yfRes timeShift fallbackDate
        rand randVol symbol days ≠ []) ∧
    ((avKey = true → providerFailed avRes) → (fmpKey = true → providerFailed fmpRes) →
      providerFailed yfRes →
      getPriceHistory avKey fmpKey avRes fmpRes yfRes timeShift fallbackDate
          rand randVol symbol days =
        fallbackHistory timeShift fallbackDate rand randVol days ∧
      (getPriceHistory avKey fmpKey avRes fmpRes yfRes timeShift fallbackDate
          rand randVol symbol days).length = days ∧
      (getPriceHistory avKey fmpKey avRes fmpRes yfRes timeShift fallbackDate
          rand randVol symbol days).map HistEntry.price =
        (List.range days).map (walkPrice rand)) := by
  constructor
  · intro hd
    simp only [getPriceHistory]
    cases hA : (if avKey then avBranch timeShift (pyStrip (pyUpper symbol)) days avRes
        else none) with
    | some h =>
      have hx : avBranch timeShift (pyStrip (pyUpper symbol)) days avRes = some h := by
        cases avKey
        · simp at hA
        · simpa using hA
      simp only [hA]
      exact List.length_pos.mp (avBranch_length _ _ _ _ _ hx hd)
    | none =>
      simp only [hA]
      cases hF : (if fmpKey then fmpBranch timeShift (pyStrip (pyUpper symbol)) days fmpRes
          else none) with
      | some h =>
        have hx : fmpBranch timeShift (pyStrip (pyUpper symbol)) days fmpRes = some h := by
          cases fmpKey
          · simp at hF
          · simpa using hF
        simp only [hF]
        exact List.length_pos.mp (fmpBranch_length _ _ _ _ _ hx hd)
      | none =>
        simp only [hF]
        cases hY : yfBranch timeShift (pyStrip (pyUpper symbol)) yfRes with
        | some h =>
          simp only [hY]
          exact List.length_pos.mp (yfBranch_length _ _ _ _ hY)
        | none =>
          simp only [hY]
          apply List.length_pos.mp
          rw [show fallbackHistory timeShift fallbackDate rand randVol days =
            fallbackGo timeShift fallbackDate rand randVol 0 days 150 from rfl]
          rw [fallbackGo_length]
          exact hd
  · intro h1 h2 h3
    have e1 : (if avKey then avBranch timeShift (pyStrip (pyUpper symbol)) days avRes
        else none) = none := by
      cases avKey
      · rfl
      · simpa using avBranch_none_of_failed timeShift _ days avRes (h1 rfl)
    have e2 : (if fmpKey then fmpBranch timeShift (pyStrip (pyUpper symbol)) days fmpRes
        else none) = none := by
      cases fmpKey
      · rfl
      · simpa using fmpBranch_none_of_failed timeShift _ days fmpRes (h2 rfl)
    have e3 : yfBranch timeShift (pyStrip (pyUpper symbol)) yfRes = none :=
      yfBranch_none_of_failed timeShift _ yfRes h3
    refine ⟨?_, ?_, ?_⟩
    · simp only [getPriceHistory, e1, e2, e3]
    · simp only [getPriceHistory, e1, e2, e3, fallbackHistory, fallbackGo_length]
    · simp only [getPriceHistory, e1, e2, e3, fallbackHistory, fallbackGo_prices]
      rfl

/-- Witness for C10 with three failing providers and three days. -/
theorem price_history_fallback_witness :
    (0 < 3) ∧ providerFailed (Except.error "boom" : Except String (List ProviderRow)) ∧
    getPriceHistory true true (Except.error "a") (Except.error "b") (Except.error "c")
        (fun d => d) (fun _ => "2026-01-01") (fun _ => 0) (fun _ => 1000000) "NVDA" 3 =
      fallbackHistory (fun d => d) (fun _ => "2026-01-01") (fun _ => 0)
        (fun _ => 1000000) 3 :=
  ⟨by decide, Or.inl ⟨"boom", rfl⟩,
    ((price_history_fallback true true (Except.error "a") (Except.error "b")
        (Except.error "c") (fun d => d) (fun _ => "2026-01-01") (fun _ => 0)
        (fun _ => 1000000) "NVDA" 3).2
      (fun _ => Or.inl ⟨"a", rfl⟩) (fun _ => Or.inl ⟨"b", rfl⟩)
      (Or.inl ⟨"c", rfl⟩)).1⟩

end TradeSage
